import Mathlib

/-!
Shallow embedding of the stage/binding composition engine of
`src/index.js` (jonathanhunsucker/audio-js).

JavaScript numbers are modelled as rationals (`ℚ`); nullable values as
`Option`; fallible operations (JS exceptions) as `Option`/`Except`.
The audio engine (Web Audio) is an external collaborator: where a claim
needs its behaviour (gain-parameter automation, node stop methods) it is
modelled explicitly from the spec's collaborator-interface section, and
documented as such at the definition.
-/

namespace AudioJS

/-- The six stage kinds of `src/index.js` (classes `Wave`, `Noise`, `Sample`,
`Gain`, `Envelope`, `Filter`), as a closed sum.  Each constructor's fields are
that class's constructor fields; upstream stages are the directly-owned child
stages. -/
inductive Stage where
  | wave (type : String)
  | noise
  | sample (data : List (List ℚ)) (beginAt endAt : ℚ)
  | gain (level : ℚ) (upstreams : List Stage)
  | envelope (attack decay sustain release : ℚ) (upstreams : List Stage)
  | filter (type : String) (frequency q gain : ℚ) (upstreams : List Stage)

/-- JS `class Binding` (src/index.js line 42): a stage, a possibly-null frequency,
and the list of child bindings. -/
inductive Binding where
  | mk (stage : Stage) (frequency : Option ℚ) (bindings : List Binding)

def Binding.stage : Binding → Stage
  | .mk s _ _ => s

def Binding.frequency : Binding → Option ℚ
  | .mk _ f _ => f

def Binding.bindings : Binding → List Binding
  | .mk _ _ bs => bs

mutual

/-- JS `bind(frequency)` of each stage class.  Wave, Gain, Envelope and Filter
construct `new Binding(this, frequency, ...)`; Noise and Sample construct
`new Binding(this, null, [])` (src/index.js lines 87-93, 123-129, 168-174,
224-230, 260-266, 304-310). -/
def Stage.bind : Stage → ℚ → Binding
  | .wave t, f => .mk (.wave t) (some f) []
  | .noise, _ => .mk .noise none []
  | .sample d b e, _ => .mk (.sample d b e) none []
  | .gain l us, f => .mk (.gain l us) (some f) (bindList us f)
  | .envelope a d s r us, f => .mk (.envelope a d s r us) (some f) (bindList us f)
  | .filter t fr q g us, f => .mk (.filter t fr q g us) (some f) (bindList us f)

/-- JS `this.upstreams.map((stage) => stage.bind(frequency))`. -/
def bindList : List Stage → ℚ → List Binding
  | [], _ => []
  | s :: rest, f => Stage.bind s f :: bindList rest f

end

/-- Bare rooted-tree shapes, used to state that two trees have the same node
count and branching. -/
inductive TreeShape where
  | node (children : List TreeShape)

mutual

/-- The shape of a stage tree: one node per stage, children are the upstreams. -/
def Stage.shape : Stage → TreeShape
  | .wave _ => .node []
  | .noise => .node []
  | .sample _ _ _ => .node []
  | .gain _ us => .node (stageShapeList us)
  | .envelope _ _ _ _ us => .node (stageShapeList us)
  | .filter _ _ _ _ us => .node (stageShapeList us)

def stageShapeList : List Stage → List TreeShape
  | [] => []
  | s :: rest => Stage.shape s :: stageShapeList rest

end

mutual

/-- The shape of a binding tree. -/
def Binding.shape : Binding → TreeShape
  | .mk _ _ bs => .node (bindingShapeList bs)

def bindingShapeList : List Binding → List TreeShape
  | [] => []
  | b :: rest => Binding.shape b :: bindingShapeList rest

end

mutual

/-- All bindings of a binding tree (the binding itself and every descendant),
in depth-first order. -/
def Binding.allBindings : Binding → List Binding
  | .mk s f bs => .mk s f bs :: allBindingsList bs

def allBindingsList : List Binding → List Binding
  | [] => []
  | b :: rest => Binding.allBindings b ++ allBindingsList rest

end

/-- The frequency `Stage.bind` actually stores on the binding for a stage of
each kind: the bound frequency for Wave/Gain/Envelope/Filter, `null` for
Noise and Sample. -/
def Stage.storedBindFrequency (s : Stage) (f : ℚ) : Option ℚ :=
  match s with
  | .noise => none
  | .sample _ _ _ => none
  | _ => some f

/-- A stage description: the plain-record serialized form. One constructor
with every field any of the six kinds may carry; a field the record does not
have is `none` (JS `undefined`). Field order: kind, type, level, attack,
decay, sustain, release, frequency, q, gain, data, beginAt, endAt,
upstreams. -/
inductive Desc where
  | mk (kind : String) (type : Option String) (level : Option ℚ)
      (attack decay sustain release : Option ℚ)
      (frequency q gain : Option ℚ)
      (data : Option (List (List ℚ)))
      (beginAt endAt : Option ℚ)
      (upstreams : Option (List Desc))

def Desc.kind : Desc → String
  | .mk k _ _ _ _ _ _ _ _ _ _ _ _ _ => k

mutual

/-- JS `toJSON()` of each stage class (src/index.js lines 106-111, 139-145,
194-203, 243-252, 282-286, 338-345).  Each serializes its kind tag and its own
fields; Gain, Envelope and Filter serialize `upstreams` element-wise. -/
def Stage.toJSON : Stage → Desc
  | .wave t =>
      .mk "wave" (some t) none none none none none none none none none none none none
  | .noise =>
      .mk "noise" none none none none none none none none none none none none none
  | .sample d b e =>
      .mk "sample" none none none none none none none none none (some d) (some b) (some e) none
  | .gain l us =>
      .mk "gain" none (some l) none none none none none none none none none none
        (some (toJSONList us))
  | .envelope a d s r us =>
      .mk "envelope" none none (some a) (some d) (some s) (some r) none none none none none none
        (some (toJSONList us))
  | .filter t fr q g us =>
      .mk "filter" (some t) none none none none none (some fr) (some q) (some g) none none none
        (some (toJSONList us))

/-- JS `upstreams.map((upstream) => upstream.toJSON())`. -/
def toJSONList : List Stage → List Desc
  | [] => []
  | s :: rest => Stage.toJSON s :: toJSONList rest

end

/-- JS `x || 0` for a possibly-absent number field: `0` when `x` is absent
(`undefined`) or `0` (both falsy), otherwise `x`. -/
def jsNumberOrZero (x : Option ℚ) : ℚ :=
  match x with
  | none => 0
  | some v => if v = 0 then 0 else v

/-- JS `x || fallback` for a possibly-absent number field, where evaluating the
fallback may itself throw (modelled as `none`). -/
def jsNumberOr (x : Option ℚ) (fallback : Option ℚ) : Option ℚ :=
  match x with
  | none => fallback
  | some v => if v = 0 then fallback else some v

/-- JS `Sample.parse` (src/index.js lines 301-303):
`new Sample(object.data, object.beginAt || 0, object.endAt || object.data[0].length)`.
Arguments are this record's `data`, `beginAt`, `endAt` fields.  When `endAt` is
falsy and `data` is absent or empty, the JS throws on `object.data[0].length`:
modelled as `none`.  (A truthy `endAt` with absent `data` would in JS construct
a Sample holding `undefined` data; no claim touches that corner and it is
modelled as `none` as well.) -/
def Sample.parse (data : Option (List (List ℚ))) (beginAt endAt : Option ℚ) : Option Stage :=
  match data with
  | none => none
  | some d =>
      match jsNumberOr endAt (d.head?.map fun c => (c.length : ℚ)) with
      | none => none
      | some e => some (.sample d (jsNumberOrZero beginAt) e)

/-- JS `Wave.parse` (src/index.js lines 84-86): `new Wave(object.type)`.  (JS
would construct a Wave holding `undefined` when `type` is absent; modelled as
`none`, a corner no claim touches.) -/
def Wave.parse (type : Option String) : Option Stage :=
  type.map fun t => .wave t

/-- JS `Sample.dataLengthInFrames` (src/index.js lines 311-313):
`Math.max(...this.data.map((array) => array.length))`, the longest channel's
length.  (`Math.max` of an empty spread is `-Infinity`; the empty-data case is
not modelled — every use in the claims has nonempty data.) -/
def Sample.dataLengthInFrames (data : List (List ℚ)) : ℚ :=
  (((data.map fun c => c.length).foldl max 0 : ℕ) : ℚ)

mutual

/-- JS `stageFactory` (src/index.js lines 30-37): a registry keyed by the six
`kind` tags `[Wave, Envelope, Gain, Filter, Noise, Sample]` dispatches to that
kind's `parse`.  For an unrecognized kind, `registry[stageObject.kind]` is
`undefined` and the JS throws on `.parse`: modelled as `none`. -/
def stageFactory : Desc → Option Stage
  | .mk kind type level attack decay sustain release frequency q gain data beginAt endAt upstreams =>
      if kind = "wave" then Wave.parse type
      else if kind = "envelope" then Envelope.parse attack decay sustain release upstreams
      else if kind = "gain" then Gain.parse level upstreams
      else if kind = "filter" then Filter.parse type frequency q gain upstreams
      else if kind = "noise" then some .noise
      else if kind = "sample" then Sample.parse data beginAt endAt
      else none

/-- JS `Envelope.parse` (src/index.js lines 160-167): all four options read
directly off the record, `object.upstreams.map(stageFactory)` (throws when
`upstreams` is absent: modelled as `none`).  Arguments are the record's
`attack`, `decay`, `sustain`, `release`, `upstreams` fields.  (JS would keep
`undefined` for an absent numeric option; modelled as `none`, a corner no
claim touches.) -/
def Envelope.parse (attack decay sustain release : Option ℚ)
    (upstreams : Option (List Desc)) : Option Stage :=
  match attack, decay, sustain, release, upstreams with
  | some a, some d, some s, some r, some us =>
      (parseList us).map fun ps => .envelope a d s r ps
  | _, _, _, _, _ => none

/-- JS `Gain.parse` (src/index.js lines 120-122):
`new Gain(object.level, (object.upstreams || []).map(stageFactory))` — an
absent `upstreams` defaults to the empty list (a present empty array is truthy
in JS and kept). -/
def Gain.parse (level : Option ℚ) (upstreams : Option (List Desc)) : Option Stage :=
  match level, upstreams with
  | some l, some us => (parseList us).map fun ps => .gain l ps
  | some l, none => some (.gain l [])
  | none, _ => none

/-- JS `Filter.parse` (src/index.js lines 215-223): type, frequency, q, gain read
directly off the record, `object.upstreams.map(stageFactory)` (throws when
absent: modelled as `none`). -/
def Filter.parse (type : Option String) (frequency q gain : Option ℚ)
    (upstreams : Option (List Desc)) : Option Stage :=
  match type, frequency, q, gain, upstreams with
  | some t, some fr, some qv, some g, some us =>
      (parseList us).map fun ps => .filter t fr qv g ps
  | _, _, _, _, _ => none

/-- JS `upstreams.map(stageFactory)`: element-wise deserialization; any element's
failure propagates (a JS throw aborts the whole `map`). -/
def parseList : List Desc → Option (List Stage)
  | [] => some []
  | o :: rest =>
      match stageFactory o, parseList rest with
      | some s, some ps => some (s :: ps)
      | _, _ => none

end

mutual

/-- Every Sample node in the tree has a nonzero `endAt` (the JS `||` default
makes a zero `endAt` non-round-trippable). -/
def sampleEndAtNonzero : Stage → Bool
  | .wave _ => true
  | .noise => true
  | .sample _ _ e => decide (e ≠ 0)
  | .gain _ us => sampleEndAtNonzeroList us
  | .envelope _ _ _ _ us => sampleEndAtNonzeroList us
  | .filter _ _ _ _ us => sampleEndAtNonzeroList us

def sampleEndAtNonzeroList : List Stage → Bool
  | [] => true
  | s :: rest => sampleEndAtNonzero s && sampleEndAtNonzeroList rest

end

/-- The stop time each stage's `release(node)` returns, as a function of the
engine clock reading `now` (`node.context.currentTime`): Wave, Gain, Filter,
Noise and Sample return `now` (src/index.js lines 103-105, 136-138, 240-242,
279-281, 335-337); Envelope returns `now + this.options.release`
(lines 184-193). -/
def Stage.releaseStopTime (s : Stage) (now : ℚ) : ℚ :=
  match s with
  | .envelope _ _ _ r _ => now + r
  | _ => now

/-- Whether the live node a stage's `press` constructs has a `stop` method:
Wave presses an OscillatorNode, Noise and Sample press AudioBufferSourceNodes
(all stoppable); Gain and Envelope press GainNodes and Filter a
BiquadFilterNode (no `stop` method).  This is what the guard
`this.node.stop && this.node.stop(at)` (src/index.js line 75) tests. -/
def Stage.nodeHasStop : Stage → Bool
  | .wave _ => true
  | .noise => true
  | .sample _ _ _ => true
  | .gain _ _ => false
  | .envelope _ _ _ _ _ => false
  | .filter _ _ _ _ _ => false

mutual

/-- JS `Binding.internalReleaseAndCalculateMaxStopsAt` (src/index.js lines 65-70):
this binding's own `release()`-reported stop time, folded with `Math.max` over
the recursively computed stop times of the child bindings.  The engine clock
reads `now` throughout this synchronous, suspension-free pass. -/
def Binding.internalReleaseAndCalculateMaxStopsAt : Binding → ℚ → ℚ
  | .mk s _ bs, now => (internalList bs now).foldl max (s.releaseStopTime now)

/-- JS `this.bindings.map((binding) => binding.internalReleaseAndCalculateMaxStopsAt())`. -/
def internalList : List Binding → ℚ → List ℚ
  | [], _ => []
  | b :: rest, now =>
      Binding.internalReleaseAndCalculateMaxStopsAt b now :: internalList rest now

end

mutual

/-- JS `Binding.stop(at)` (src/index.js lines 74-77) as the list of per-binding
stop invocations it performs, in depth-first order: each entry records whether
this binding's node has a `stop` method (the `this.node.stop &&` guard decides
whether the engine-level stop call happens) and the `at` it was invoked with;
the recursion passes the same `at` to every child binding. -/
def Binding.stop : Binding → ℚ → List (Bool × ℚ)
  | .mk s _ bs, u => (s.nodeHasStop, u) :: stopList bs u

/-- JS `this.bindings.forEach((binding) => binding.stop(at))`. -/
def stopList : List Binding → ℚ → List (Bool × ℚ)
  | [], _ => []
  | b :: rest, u => Binding.stop b u ++ stopList rest u

end

/-- JS `Binding.release()` (src/index.js lines 58-61): compute the subtree-wide
maximum stop time, then run the stop pass with it. -/
def Binding.release (b : Binding) (now : ℚ) : List (Bool × ℚ) :=
  b.stop (b.internalReleaseAndCalculateMaxStopsAt now)

mutual

/-- The stages of a binding and all of its descendants, in depth-first order. -/
def Binding.allStages : Binding → List Stage
  | .mk s _ bs => s :: allStagesList bs

def allStagesList : List Binding → List Stage
  | [] => []
  | b :: rest => Binding.allStages b ++ allStagesList rest

end

/-- One observable engine action during `play`: `press n u` is the invocation
of a stage's `press(audioContext, at, frequency)` with `at = u`, constructing
that binding's live node (nodes are identified by an allocation counter — each
stage's `press` constructs and returns exactly one node); `connect s d` is
`s.connect(d)`. -/
inductive Event where
  | press (node : Nat) (u : ℚ)
  | connect (src dst : Nat)

/-- A played binding tree: each binding paired with the node its `play`
recorded on it (`this.node = node`, src/index.js line 54). -/
inductive PlayedTree where
  | mk (node : Nat) (children : List PlayedTree)

def PlayedTree.node : PlayedTree → Nat
  | .mk n _ => n

mutual

/-- The nodes of a played tree, in depth-first order. -/
def PlayedTree.nodes : PlayedTree → List Nat
  | .mk n cs => n :: nodesList cs

def nodesList : List PlayedTree → List Nat
  | [] => []
  | t :: ts => PlayedTree.nodes t ++ nodesList ts

end

mutual

/-- The (child node, parent node) pairs of a played tree. -/
def PlayedTree.edges : PlayedTree → List (Nat × Nat)
  | .mk n cs => edgesList cs n

def edgesList : List PlayedTree → Nat → List (Nat × Nat)
  | [], _ => []
  | t :: ts, p => (t.node, p) :: (PlayedTree.edges t ++ edgesList ts p)

end

mutual

def PlayedTree.shape : PlayedTree → TreeShape
  | .mk _ cs => .node (playedShapeList cs)

def playedShapeList : List PlayedTree → List TreeShape
  | [] => []
  | t :: ts => PlayedTree.shape t :: playedShapeList ts

end

mutual

/-- JS `Binding.play(audioContext, destination, at)` (src/index.js lines 51-57)
run against the abstract engine: the trace records, in order, the press of
this binding's node at time `at`, its connection into `destination`
(`node.connect(destination)`), and then, for each child binding in order, the
child's own play trace — with this node as the child's destination and the
same `at` — followed by the extra `.connect(node)` the parent applies to the
node returned by the child's play.  Returns (returned node, played tree,
trace, next allocation counter). -/
def Binding.play : Binding → Nat → ℚ → Nat → Nat × PlayedTree × List Event × Nat
  | .mk _ _ bs, dest, u, fresh =>
      match playList bs fresh u (fresh + 1) with
      | (ts, evs, fresh2) =>
          (fresh, .mk fresh ts,
            .press fresh u :: .connect fresh dest :: evs, fresh2)

/-- JS `this.bindings.forEach((binding) => binding.play(audioContext, node, at).connect(node))`. -/
def playList : List Binding → Nat → ℚ → Nat → List PlayedTree × List Event × Nat
  | [], _, _, fresh => ([], [], fresh)
  | b :: rest, dest, u, fresh =>
      match Binding.play b dest u fresh with
      | (n1, t1, evs1, fresh1) =>
          match playList rest dest u fresh1 with
          | (ts, evs2, fresh2) =>
              (t1 :: ts, evs1 ++ (.connect n1 dest :: evs2), fresh2)

end

/-- The press events of a trace, in order, as (node, time) pairs. -/
def pressList (evs : List Event) : List (Nat × ℚ) :=
  evs.filterMap fun e =>
    match e with
    | .press n u => some (n, u)
    | .connect _ _ => none

/-- The targets, in order, of the connect events of a trace whose source is
the node `c`. -/
def connectTargets (evs : List Event) (c : Nat) : List Nat :=
  evs.filterMap fun e =>
    match e with
    | .press _ _ => none
    | .connect s d => if s = c then some d else none

/-- A gain AudioParam automation event: `setValueAtTime(value, time)` or
`linearRampToValueAtTime(value, time)`.  Modelled from the spec: the gain
parameter belongs to the audio-engine collaborator (spec section 6), which is
external to the repository; `src/index.js` only issues these calls. -/
inductive AutomationEvent where
  | setValue (value : ℚ) (time : ℚ)
  | linearRamp (value : ℚ) (time : ℚ)

def AutomationEvent.time : AutomationEvent → ℚ
  | .setValue _ t => t
  | .linearRamp _ t => t

/-- A controllable gain parameter: its intrinsic value and its scheduled
automation events, in scheduling order.  Modelled from the spec (section 6):
gain-bearing nodes expose a parameter supporting `setValueAtTime`,
`linearRampToValueAtTime`, `cancelScheduledValues` and current-value
readback. -/
structure GainParam where
  initialValue : ℚ
  events : List AutomationEvent

/-- JS `param.setValueAtTime(v, t)`.  This library only ever schedules events in
non-decreasing time order, for which appending models the Web Audio
insertion. -/
def GainParam.setValueAtTime (g : GainParam) (v t : ℚ) : GainParam :=
  { g with events := g.events ++ [.setValue v t] }

/-- JS `param.linearRampToValueAtTime(v, t)`. -/
def GainParam.linearRampToValueAtTime (g : GainParam) (v t : ℚ) : GainParam :=
  { g with events := g.events ++ [.linearRamp v t] }

/-- JS `param.cancelScheduledValues(t)`: removes every event scheduled at time
`t` or later. -/
def GainParam.cancelScheduledValues (g : GainParam) (t : ℚ) : GainParam :=
  { g with events := g.events.filter (fun e => e.time < t) }

/-- The parameter's computed value at time `t`, given the anchor value `v0`
held since time `t0`: a `setValue v1 t1` holds the previous value before `t1`
and anchors `v1` from `t1` on; a `linearRamp v1 t1` interpolates linearly from
the previous anchor `(v0, t0)` to `(v1, t1)` and holds `v1` from `t1` on.
Modelled from the spec: Web Audio linear-ramp automation semantics (the spec's
"gain value interpolated at that instant"). -/
def valueFrom (v0 t0 : ℚ) : List AutomationEvent → ℚ → ℚ
  | [], _ => v0
  | .setValue v1 t1 :: rest, t =>
      if t < t1 then v0 else valueFrom v1 t1 rest t
  | .linearRamp v1 t1 :: rest, t =>
      if t < t1 then
        (if t ≤ t0 then v0 else v0 + (v1 - v0) * (t - t0) / (t1 - t0))
      else valueFrom v1 t1 rest t

/-- JS `param.value` read with the engine clock at `t`. -/
def GainParam.valueAt (g : GainParam) (t : ℚ) : ℚ :=
  valueFrom g.initialValue t g.events t

/-- JS `Envelope.press(audioContext, at, frequency)` (src/index.js lines 175-183)
restricted to the gain parameter it schedules: `createGain()` yields a node
whose gain parameter has intrinsic value 1; then
`node.gain.setValueAtTime(0.0, at + 0.0)`,
`node.gain.linearRampToValueAtTime(1.0, at + this.options.attack)`,
`node.gain.linearRampToValueAtTime(this.options.sustain, at + this.options.attack + this.options.decay)`. -/
def Envelope.press (attack decay sustain u : ℚ) : GainParam :=
  (((GainParam.mk 1 []).setValueAtTime 0 (u + 0)).linearRampToValueAtTime 1
      (u + attack)).linearRampToValueAtTime sustain (u + attack + decay)

/-- JS `Envelope.release(node)` (src/index.js lines 184-193) acting on the node's
gain parameter, with the engine clock at `now`: read
`valueBefore = node.gain.value` (the computed value at `now`), then
`cancelScheduledValues(now)`, `setValueAtTime(valueBefore, now)`,
`linearRampToValueAtTime(0, now + this.options.release)`; returns
`now + this.options.release`. -/
def Envelope.release (rel : ℚ) (g : GainParam) (now : ℚ) : GainParam × ℚ :=
  (((g.cancelScheduledValues now).setValueAtTime (g.valueAt now) now).linearRampToValueAtTime
      0 (now + rel),
    now + rel)

mutual

/-- JS `Binding.stop(at)` (src/index.js lines 74-77) run over a played tree
against an engine whose nodes' stop operations may throw:
`this.node.stop && this.node.stop(at)` calls stop only when the method exists
(`beh n = none` models a node with no `stop`), with NO try/catch — an
exception from `node.stop(at)` propagates to the caller and aborts the rest of
the pass.  The per-node behaviour `beh` is the engine's
(modelled from the spec, section 6: nodes optionally support `stop(atTime)`,
which can be invalid in the node's current state). -/
def PlayedTree.stopRun (beh : Nat → Option (ℚ → Except String Unit)) :
    PlayedTree → ℚ → Except String Unit
  | .mk n cs, u =>
      match beh n with
      | none => stopRunList beh cs u
      | some f =>
          match f u with
          | .ok _ => stopRunList beh cs u
          | .error msg => .error msg

/-- JS `this.bindings.forEach((binding) => binding.stop(at))`: sequential; a
throw aborts the iteration. -/
def stopRunList (beh : Nat → Option (ℚ → Except String Unit)) :
    List PlayedTree → ℚ → Except String Unit
  | [], _ => .ok ()
  | t :: ts, u =>
      match PlayedTree.stopRun beh t u with
      | .ok _ => stopRunList beh ts u
      | .error msg => .error msg

end

end AudioJS

namespace AudioJS

theorem jsNumberOrZero_some (b : ℚ) : jsNumberOrZero (some b) = b := by
  simp only [jsNumberOrZero]
  split <;> simp_all

mutual

theorem bind_shape_and_frequency (s : Stage) (f : ℚ) :
    (Stage.bind s f).shape = s.shape ∧
      ∀ b ∈ (Stage.bind s f).allBindings,
        b.frequency = b.stage.storedBindFrequency f := by
  cases s with
  | wave t =>
      simp [Stage.bind, Binding.shape, Stage.shape, Binding.allBindings,
        allBindingsList, bindingShapeList, Binding.frequency, Binding.stage,
        Stage.storedBindFrequency]
  | noise =>
      simp [Stage.bind, Binding.shape, Stage.shape, Binding.allBindings,
        allBindingsList, bindingShapeList, Binding.frequency, Binding.stage,
        Stage.storedBindFrequency]
  | sample d b e =>
      simp [Stage.bind, Binding.shape, Stage.shape, Binding.allBindings,
        allBindingsList, bindingShapeList, Binding.frequency, Binding.stage,
        Stage.storedBindFrequency]
  | gain l us =>
      obtain ⟨h1, h2⟩ := bindList_shape_and_frequency us f
      refine ⟨by simp [Stage.bind, Binding.shape, Stage.shape, h1], ?_⟩
      intro b hb
      simp [Stage.bind, Binding.allBindings] at hb
      rcases hb with hb | hb
      · subst hb
        simp [Binding.frequency, Binding.stage, Stage.storedBindFrequency]
      · exact h2 b hb
  | envelope a d su r us =>
      obtain ⟨h1, h2⟩ := bindList_shape_and_frequency us f
      refine ⟨by simp [Stage.bind, Binding.shape, Stage.shape, h1], ?_⟩
      intro b hb
      simp [Stage.bind, Binding.allBindings] at hb
      rcases hb with hb | hb
      · subst hb
        simp [Binding.frequency, Binding.stage, Stage.storedBindFrequency]
      · exact h2 b hb
  | filter t fr q g us =>
      obtain ⟨h1, h2⟩ := bindList_shape_and_frequency us f
      refine ⟨by simp [Stage.bind, Binding.shape, Stage.shape, h1], ?_⟩
      intro b hb
      simp [Stage.bind, Binding.allBindings] at hb
      rcases hb with hb | hb
      · subst hb
        simp [Binding.frequency, Binding.stage, Stage.storedBindFrequency]
      · exact h2 b hb

theorem bindList_shape_and_frequency (l : List Stage) (f : ℚ) :
    bindingShapeList (bindList l f) = stageShapeList l ∧
      ∀ b ∈ allBindingsList (bindList l f),
        b.frequency = b.stage.storedBindFrequency f := by
  cases l with
  | nil => simp [bindList, allBindingsList, bindingShapeList, stageShapeList]
  | cons s rest =>
      obtain ⟨h1, h2⟩ := bind_shape_and_frequency s f
      obtain ⟨h3, h4⟩ := bindList_shape_and_frequency rest f
      refine ⟨by simp [bindList, bindingShapeList, stageShapeList, h1, h3], ?_⟩
      intro b hb
      simp [bindList, allBindingsList] at hb
      rcases hb with hb | hb
      · exact h2 b hb
      · exact h4 b hb

end

end AudioJS

namespace AudioJS

mutual

theorem stageFactory_toJSON (s : Stage) (h : sampleEndAtNonzero s = true) :
    stageFactory s.toJSON = some s := by
  cases s with
  | wave t => simp [Stage.toJSON, stageFactory, Wave.parse]
  | noise => simp [Stage.toJSON, stageFactory]
  | sample d b e =>
      have he : ¬ e = 0 := by simpa [sampleEndAtNonzero] using h
      simp [Stage.toJSON, stageFactory, Sample.parse, jsNumberOr, jsNumberOrZero_some, he]
  | gain l us =>
      have h2 : sampleEndAtNonzeroList us = true := by
        simpa [sampleEndAtNonzero] using h
      simp [Stage.toJSON, stageFactory, Gain.parse, parseList_toJSONList us h2]
  | envelope a d sv r us =>
      have h2 : sampleEndAtNonzeroList us = true := by
        simpa [sampleEndAtNonzero] using h
      simp [Stage.toJSON, stageFactory, Envelope.parse, parseList_toJSONList us h2]
  | filter t fr qv g us =>
      have h2 : sampleEndAtNonzeroList us = true := by
        simpa [sampleEndAtNonzero] using h
      simp [Stage.toJSON, stageFactory, Filter.parse, parseList_toJSONList us h2]

theorem parseList_toJSONList (l : List Stage) (h : sampleEndAtNonzeroList l = true) :
    parseList (toJSONList l) = some l := by
  cases l with
  | nil => simp [toJSONList, parseList]
  | cons s rest =>
      have h1 : sampleEndAtNonzero s = true := by
        have := h
        simp [sampleEndAtNonzeroList, Bool.and_eq_true] at this
        exact this.1
      have h2 : sampleEndAtNonzeroList rest = true := by
        have := h
        simp [sampleEndAtNonzeroList, Bool.and_eq_true] at this
        exact this.2
      simp [toJSONList, parseList, stageFactory_toJSON s h1, parseList_toJSONList rest h2]

end

end AudioJS

namespace AudioJS

/-- Claim C2 counterexample: the claim "every binding in the resulting tree has
frequency equal to f" fails at the concrete input `Stage.noise.bind 440`, whose
root binding stores `null` (src/index.js lines 260-266). -/
theorem bind_noise_frequency_is_null :
    (Stage.bind .noise 440).frequency ≠ some 440 := by
  simp [Stage.bind, Binding.frequency]

/-- Claim C2 (corrected). `stage.bind(f)` yields a binding tree with the same
shape (node count and branching) as the stage tree, but only bindings of
Wave/Gain/Envelope/Filter stages carry frequency `f`; bindings of Noise and
Sample stages carry `null`. -/
theorem bind_isomorphism_and_frequencies (s : Stage) (f : ℚ) :
    (Stage.bind s f).shape = s.shape ∧
      ∀ b ∈ (Stage.bind s f).allBindings,
        b.frequency = b.stage.storedBindFrequency f :=
  bind_shape_and_frequency s f

/-- Claim C2 witness: the amended theorem instantiated for a Gain wrapping a Wave,
at frequency 440, checked on the root's single descendant binding. -/
theorem bind_isomorphism_and_frequencies_witness :
    (Stage.bind (.gain 1 [.wave "triangle"]) 440).shape
        = (Stage.gain 1 [.wave "triangle"]).shape ∧
      (Binding.mk (.wave "triangle") (some 440) []).frequency
        = (Binding.mk (.wave "triangle") (some 440) []).stage.storedBindFrequency 440 := by
  refine ⟨(bind_isomorphism_and_frequencies (.gain 1 [.wave "triangle"]) 440).1, ?_⟩
  apply (bind_isomorphism_and_frequencies (.gain 1 [.wave "triangle"]) 440).2
  simp [Stage.bind, bindList, Binding.allBindings, allBindingsList]

/-- Claim C3 counterexample: a Sample stage with `endAt = 0` does not survive the
round trip — `object.endAt || object.data[0].length` (src/index.js line 302)
turns the serialized 0 into the first channel's length 1. -/
theorem roundtrip_fails_for_zero_endAt :
    stageFactory (Stage.toJSON (.sample [[0]] 0 0)) ≠ some (.sample [[0]] 0 0) := by
  simp [Stage.toJSON, stageFactory, Sample.parse, jsNumberOr, jsNumberOrZero]

/-- Claim C3 (corrected): deserializing the serialized form of a stage tree
yields a value-equal tree — same kind, parameters and upstream order,
recursively — for every tree in which each Sample node has a nonzero `endAt`
(a zero `endAt` is falsy in JS and is replaced by the `||` default on parse). -/
theorem roundtrip_toJSON_stageFactory (s : Stage) (h : sampleEndAtNonzero s = true) :
    stageFactory s.toJSON = some s :=
  stageFactory_toJSON s h

/-- Claim C3 witness: a Gain tree with a Wave, a Sample (endAt 2) and an Envelope
wrapping a Noise round-trips to itself. -/
theorem roundtrip_toJSON_stageFactory_witness :
    sampleEndAtNonzero
        (.gain (1/2) [.wave "triangle", .sample [[1, 2]] 0 2,
          .envelope (1/10) (1/5) (3/5) (3/10) [.noise]]) = true ∧
      stageFactory
          (Stage.toJSON (.gain (1/2) [.wave "triangle", .sample [[1, 2]] 0 2,
            .envelope (1/10) (1/5) (3/5) (3/10) [.noise]]))
        = some (.gain (1/2) [.wave "triangle", .sample [[1, 2]] 0 2,
            .envelope (1/10) (1/5) (3/5) (3/10) [.noise]]) := by
  have h : sampleEndAtNonzero
      (.gain (1/2) [.wave "triangle", .sample [[1, 2]] 0 2,
        .envelope (1/10) (1/5) (3/5) (3/10) [.noise]]) = true := by
    norm_num [sampleEndAtNonzero, sampleEndAtNonzeroList]
  exact ⟨h, roundtrip_toJSON_stageFactory _ h⟩

/-- Claim C4: for a description whose kind tag is not one of the six registered
kinds, `stageFactory` fails (the registry lookup yields nothing) and constructs
no stage. -/
theorem stageFactory_unknown_kind_fails (o : Desc)
    (h : o.kind ∉ (["wave", "noise", "sample", "gain", "envelope", "filter"] : List String)) :
    stageFactory o = none := by
  obtain ⟨k, ty, l, a, d, sv, r, fr, qv, g, da, ba, ea, us⟩ := o
  simp [Desc.kind] at h
  obtain ⟨h1, h2, h3, h4, h5, h6⟩ := h
  simp [stageFactory, h1, h2, h3, h4, h5, h6]

/-- Claim C4 witness: deserializing `\x7bkind: "unknown"\x7d` fails. -/
theorem stageFactory_unknown_kind_fails_witness :
    ("unknown" : String) ∉ (["wave", "noise", "sample", "gain", "envelope", "filter"] : List String) ∧
      stageFactory (.mk "unknown" none none none none none none none none none none none none none)
        = none := by
  refine ⟨by decide, ?_⟩
  exact stageFactory_unknown_kind_fails
    (.mk "unknown" none none none none none none none none none none none none none)
    (by decide)

end AudioJS

namespace AudioJS

/-- Claim C9 counterexample: for sample data with channels of lengths 1 and 2 and
a missing `endAt`, parsing defaults `endAt` to `data[0].length = 1`
(src/index.js line 302), while the longest channel's length
(`dataLengthInFrames`, lines 311-313) is 2. -/
theorem sample_parse_endAt_default_not_longest :
    Sample.parse (some [[0], [0, 0]]) none none = some (.sample [[0], [0, 0]] 0 1) ∧
      Sample.dataLengthInFrames [[0], [0, 0]] = 2 ∧ (1 : ℚ) ≠ 2 := by
  refine ⟨?_, ?_, by norm_num⟩
  · simp [Sample.parse, jsNumberOr, jsNumberOrZero]
  · simp [Sample.dataLengthInFrames, List.foldl]

/-- Claim C9 (corrected): for a sample description with nonempty data, a missing
`beginAt` defaults to 0, and a missing `endAt` defaults to the length of the
FIRST channel (`data[0].length`), not to the longest channel's length. -/
theorem sample_parse_defaults (data : List (List ℚ)) (c0 : List ℚ)
    (rest : List (List ℚ)) (beginAtOpt endAtOpt : Option ℚ) (h : data = c0 :: rest) :
    (∃ e, Sample.parse (some data) none endAtOpt = some (.sample data 0 e)) ∧
      Sample.parse (some data) beginAtOpt none
        = some (.sample data (jsNumberOrZero beginAtOpt) ((c0.length : ℚ))) := by
  subst h
  constructor
  · cases endAtOpt with
    | none =>
        exact ⟨(c0.length : ℚ), by simp [Sample.parse, jsNumberOr, jsNumberOrZero]⟩
    | some e =>
        by_cases he : e = 0
        · exact ⟨(c0.length : ℚ), by simp [Sample.parse, jsNumberOr, jsNumberOrZero, he]⟩
        · exact ⟨e, by simp [Sample.parse, jsNumberOr, jsNumberOrZero, he]⟩
  · simp [Sample.parse, jsNumberOr]

/-- Claim C9 witness: the amended theorem at data `[[0], [0, 0]]` with both
fields missing: beginAt defaults to 0 and endAt to the first channel's
length 1. -/
theorem sample_parse_defaults_witness :
    ([[0], [0, 0]] : List (List ℚ)) = [0] :: [[0, 0]] ∧
      ((∃ e, Sample.parse (some [[0], [0, 0]]) none none
          = some (.sample [[0], [0, 0]] 0 e)) ∧
        Sample.parse (some [[0], [0, 0]]) none none
          = some (.sample [[0], [0, 0]] (jsNumberOrZero none) ((([0] : List ℚ).length : ℚ)))) :=
  ⟨rfl, sample_parse_defaults [[0], [0, 0]] [0] [[0, 0]] none none rfl⟩

end AudioJS

namespace AudioJS

theorem foldl_max_init_le (l : List ℚ) (a : ℚ) : a ≤ l.foldl max a := by
  induction l generalizing a with
  | nil => exact le_refl a
  | cons x t ih => exact le_trans (le_max_left a x) (ih (max a x))

theorem foldl_max_le_of_mem (l : List ℚ) (a x : ℚ) (hx : x ∈ l) : x ≤ l.foldl max a := by
  induction l generalizing a with
  | nil => cases hx
  | cons y t ih =>
      rcases List.mem_cons.mp hx with h | h
      · subst h
        exact le_trans (le_max_right a x) (foldl_max_init_le t (max a x))
      · exact ih (max a y) h

theorem foldl_max_attained (l : List ℚ) (a : ℚ) :
    l.foldl max a = a ∨ l.foldl max a ∈ l := by
  induction l generalizing a with
  | nil => exact Or.inl rfl
  | cons y t ih =>
      rcases ih (max a y) with h | h
      · rcases max_choice a y with hm | hm
        · exact Or.inl (by rw [List.foldl_cons, h, hm])
        · exact Or.inr (by rw [List.foldl_cons, h, hm]; exact List.mem_cons_self y t)
      · exact Or.inr (List.mem_cons_of_mem y h)

mutual

theorem internal_max_spec (b : Binding) (now : ℚ) :
    (∀ s ∈ b.allStages,
        s.releaseStopTime now ≤ b.internalReleaseAndCalculateMaxStopsAt now) ∧
      b.internalReleaseAndCalculateMaxStopsAt now
        ∈ b.allStages.map (fun s => s.releaseStopTime now) := by
  cases b with
  | mk s f bs =>
      obtain ⟨h1, h2⟩ := internalList_max_spec bs now
      constructor
      · intro s2 hs2
        simp only [Binding.allStages, List.mem_cons] at hs2
        rcases hs2 with h | h
        · subst h
          exact foldl_max_init_le (internalList bs now) (s2.releaseStopTime now)
        · obtain ⟨x, hxmem, hxle⟩ := h1 s2 h
          exact le_trans hxle
            (foldl_max_le_of_mem (internalList bs now) (s.releaseStopTime now) x hxmem)
      · simp only [Binding.internalReleaseAndCalculateMaxStopsAt]
        rcases foldl_max_attained (internalList bs now) (s.releaseStopTime now) with h | h
        · rw [h]
          simp [Binding.allStages]
        · have := h2 _ h
          simp only [Binding.allStages, List.map_cons, List.mem_cons]
          exact Or.inr this

theorem internalList_max_spec (l : List Binding) (now : ℚ) :
    (∀ s ∈ allStagesList l,
        ∃ x ∈ internalList l now, s.releaseStopTime now ≤ x) ∧
      ∀ x ∈ internalList l now,
        x ∈ (allStagesList l).map (fun s => s.releaseStopTime now) := by
  cases l with
  | nil => simp [allStagesList, internalList]
  | cons b rest =>
      obtain ⟨hb1, hb2⟩ := internal_max_spec b now
      obtain ⟨hr1, hr2⟩ := internalList_max_spec rest now
      constructor
      · intro s hs
        simp only [allStagesList, List.mem_append] at hs
        rcases hs with h | h
        · exact ⟨b.internalReleaseAndCalculateMaxStopsAt now,
            by simp [internalList], hb1 s h⟩
        · obtain ⟨x, hxmem, hxle⟩ := hr1 s h
          exact ⟨x, by simp [internalList, hxmem], hxle⟩
      · intro x hx
        simp only [internalList, List.mem_cons] at hx
        simp only [allStagesList, List.map_append, List.mem_append]
        rcases hx with h | h
        · subst h
          exact Or.inl hb2
        · exact Or.inr (hr2 x h)

end

mutual

theorem stop_entries (b : Binding) (u : ℚ) :
    (Binding.stop b u).length = b.allBindings.length ∧
      ∀ e ∈ Binding.stop b u, e.2 = u := by
  cases b with
  | mk s f bs =>
      obtain ⟨h1, h2⟩ := stopList_entries bs u
      refine ⟨by simp [Binding.stop, Binding.allBindings, h1], ?_⟩
      intro e he
      simp only [Binding.stop, List.mem_cons] at he
      rcases he with h | h
      · subst h; rfl
      · exact h2 e h

theorem stopList_entries (l : List Binding) (u : ℚ) :
    (stopList l u).length = (allBindingsList l).length ∧
      ∀ e ∈ stopList l u, e.2 = u := by
  cases l with
  | nil => simp [stopList, allBindingsList]
  | cons b rest =>
      obtain ⟨h1, h2⟩ := stop_entries b u
      obtain ⟨h3, h4⟩ := stopList_entries rest u
      refine ⟨by simp [stopList, allBindingsList, h1, h3], ?_⟩
      intro e he
      simp only [stopList, List.mem_append] at he
      rcases he with h | h
      · exact h2 e h
      · exact h4 e h

end

/-- Claim C1: `release()` computes, for the binding and every descendant, the
stop time that node's stage `release` reports, folds them via maximum over the
whole subtree (the computed value bounds every node's own reported stop time
from above and is attained by one of them), and the ensuing stop pass issues
one stop invocation per binding in the subtree, every one carrying that single
maximum time. -/
theorem release_stops_whole_subtree_at_max (b : Binding) (now : ℚ) :
    (∀ s ∈ b.allStages,
        s.releaseStopTime now ≤ b.internalReleaseAndCalculateMaxStopsAt now) ∧
      b.internalReleaseAndCalculateMaxStopsAt now
        ∈ b.allStages.map (fun s => s.releaseStopTime now) ∧
      (Binding.release b now).length = b.allBindings.length ∧
      ∀ e ∈ Binding.release b now,
        e.2 = b.internalReleaseAndCalculateMaxStopsAt now := by
  obtain ⟨h1, h2⟩ := internal_max_spec b now
  obtain ⟨h3, h4⟩ := stop_entries b (b.internalReleaseAndCalculateMaxStopsAt now)
  exact ⟨h1, h2, h3, h4⟩

/-- Claim C1 witness: a Gain over a Wave and an Envelope (release 3/10), released
with the engine clock at 2: the subtree max is 2 + 3/10; the Wave stage's own
reported stop time 2 is bounded by it, it is attained, and the stop pass
carries it to all three bindings. -/
theorem release_stops_whole_subtree_at_max_witness :
    ((Stage.wave "sine").releaseStopTime 2
        ≤ (Binding.mk (.gain 1 []) none
            [.mk (.wave "sine") (some 440) [],
             .mk (.envelope (1/10) (1/5) (3/5) (3/10) []) (some 440) []]).internalReleaseAndCalculateMaxStopsAt 2) ∧
      (Binding.mk (.gain 1 []) none
          [.mk (.wave "sine") (some 440) [],
           .mk (.envelope (1/10) (1/5) (3/5) (3/10) []) (some 440) []]).internalReleaseAndCalculateMaxStopsAt 2
        ∈ (Binding.mk (.gain 1 []) none
            [.mk (.wave "sine") (some 440) [],
             .mk (.envelope (1/10) (1/5) (3/5) (3/10) []) (some 440) []]).allStages.map
              (fun s => s.releaseStopTime 2) := by
  have h := release_stops_whole_subtree_at_max
    (Binding.mk (.gain 1 []) none
      [.mk (.wave "sine") (some 440) [],
       .mk (.envelope (1/10) (1/5) (3/5) (3/10) []) (some 440) []]) 2
  refine ⟨h.1 (.wave "sine") ?_, h.2.1⟩
  simp [Binding.allStages, allStagesList]

end AudioJS

namespace AudioJS

theorem pressList_nil : pressList [] = [] := rfl

theorem pressList_append (evs1 evs2 : List Event) :
    pressList (evs1 ++ evs2) = pressList evs1 ++ pressList evs2 := by
  simp [pressList, List.filterMap_append]

theorem pressList_press (n : Nat) (u : ℚ) (evs : List Event) :
    pressList (.press n u :: evs) = (n, u) :: pressList evs := by
  simp [pressList, List.filterMap_cons]

theorem pressList_connect (s d : Nat) (evs : List Event) :
    pressList (.connect s d :: evs) = pressList evs := by
  simp [pressList, List.filterMap_cons]

theorem connectTargets_nil (c : Nat) : connectTargets [] c = [] := rfl

theorem connectTargets_append (evs1 evs2 : List Event) (c : Nat) :
    connectTargets (evs1 ++ evs2) c = connectTargets evs1 c ++ connectTargets evs2 c := by
  simp [connectTargets, List.filterMap_append]

theorem connectTargets_press (n : Nat) (u : ℚ) (evs : List Event) (c : Nat) :
    connectTargets (.press n u :: evs) c = connectTargets evs c := by
  simp [connectTargets, List.filterMap_cons]

theorem connectTargets_connect_self (s d : Nat) (evs : List Event) :
    connectTargets (.connect s d :: evs) s = d :: connectTargets evs s := by
  simp [connectTargets, List.filterMap_cons]

theorem connectTargets_connect_ne (s d c : Nat) (evs : List Event) (h : s ≠ c) :
    connectTargets (.connect s d :: evs) c = connectTargets evs c := by
  simp [connectTargets, List.filterMap_cons, h]

theorem connect_mem_of_target (evs : List Event) (c d : Nat)
    (h : d ∈ connectTargets evs c) : Event.connect c d ∈ evs := by
  simp only [connectTargets, List.mem_filterMap] at h
  obtain ⟨e, hmem, he⟩ := h
  cases e with
  | press _ _ => simp at he
  | connect s d2 =>
      by_cases hs : s = c
      · subst hs
        simp at he
        subst he
        exact hmem
      · simp [hs] at he

end AudioJS

namespace AudioJS

mutual

theorem play_spec (b : Binding) (dest : Nat) (u : ℚ) (fresh : Nat)
    (n : Nat) (t : PlayedTree) (evs : List Event) (fresh2 : Nat)
    (h : Binding.play b dest u fresh = (n, t, evs, fresh2)) :
    n = t.node ∧ t.node = fresh ∧ t.node ∈ t.nodes ∧ fresh < fresh2 ∧
      (∀ m ∈ t.nodes, fresh ≤ m ∧ m < fresh2) ∧
      t.shape = b.shape ∧
      pressList evs = t.nodes.map (fun m => (m, u)) ∧
      connectTargets evs t.node = [dest] ∧
      (∀ cp ∈ t.edges, connectTargets evs cp.1 = [cp.2, cp.2]) ∧
      (∀ cp ∈ t.edges, cp.1 ∈ t.nodes ∧ cp.1 ≠ t.node) ∧
      (∀ c, c ∉ t.nodes → connectTargets evs c = []) := by
  cases b with
  | mk s f bs =>
      rcases hL : playList bs fresh u (fresh + 1) with ⟨ts, evsL, fL⟩
      have h2 := h
      simp only [Binding.play, hL] at h2
      simp only [Prod.mk.injEq] at h2
      obtain ⟨rfl, rfl, rfl, rfl⟩ := h2
      obtain ⟨B1, B2, B3, B4, B5, B6, B7⟩ :=
        playList_spec bs fresh u (fresh + 1) ts evsL fL hL
      have hnode : (PlayedTree.mk fresh ts).node = fresh := rfl
      have hnodes : (PlayedTree.mk fresh ts).nodes = fresh :: nodesList ts := rfl
      have hedges : (PlayedTree.mk fresh ts).edges = edgesList ts fresh := rfl
      have hfreshout : fresh ∉ nodesList ts := by
        intro hc
        exact absurd (B2 fresh hc).1 (by omega)
      refine ⟨rfl, rfl, by rw [hnodes]; exact List.mem_cons_self _ _, by omega, ?_, ?_, ?_, ?_, ?_, ?_, ?_⟩
      · intro m hm
        rw [hnodes] at hm
        rcases List.mem_cons.mp hm with h | h
        · subst h; omega
        · have := B2 m h; omega
      · show PlayedTree.shape (.mk fresh ts) = Binding.shape (.mk s f bs)
        simp only [PlayedTree.shape, Binding.shape, B3]
      · rw [hnodes, pressList_press, pressList_connect, B4]
        rfl
      · rw [hnode, connectTargets_press, connectTargets_connect_self, B7 fresh hfreshout]
      · intro cp hcp
        rw [hedges] at hcp
        have hsrc := B6 cp hcp
        have hne : fresh ≠ cp.1 := by
          intro hc
          rw [← hc] at hsrc
          exact hfreshout hsrc
        rw [connectTargets_press, connectTargets_connect_ne _ _ _ _ hne]
        exact B5 cp hcp
      · intro cp hcp
        rw [hedges] at hcp
        have hsrc := B6 cp hcp
        refine ⟨by rw [hnodes]; exact List.mem_cons_of_mem _ hsrc, ?_⟩
        rw [hnode]
        intro hc
        rw [hc] at hsrc
        exact hfreshout hsrc
      · intro c hc
        rw [hnodes] at hc
        have hc1 : c ≠ fresh := fun hcc => hc (hcc ▸ List.mem_cons_self _ _)
        have hc2 : c ∉ nodesList ts := fun hcc => hc (List.mem_cons_of_mem _ hcc)
        rw [connectTargets_press, connectTargets_connect_ne _ _ _ _ (Ne.symm hc1)]
        exact B7 c hc2

theorem playList_spec (l : List Binding) (dest : Nat) (u : ℚ) (fresh : Nat)
    (ts : List PlayedTree) (evs : List Event) (fresh2 : Nat)
    (h : playList l dest u fresh = (ts, evs, fresh2)) :
    fresh ≤ fresh2 ∧
      (∀ m ∈ nodesList ts, fresh ≤ m ∧ m < fresh2) ∧
      playedShapeList ts = bindingShapeList l ∧
      pressList evs = (nodesList ts).map (fun m => (m, u)) ∧
      (∀ cp ∈ edgesList ts dest, connectTargets evs cp.1 = [cp.2, cp.2]) ∧
      (∀ cp ∈ edgesList ts dest, cp.1 ∈ nodesList ts) ∧
      (∀ c, c ∉ nodesList ts → connectTargets evs c = []) := by
  cases l with
  | nil =>
      simp only [playList, Prod.mk.injEq] at h
      obtain ⟨rfl, rfl, rfl⟩ := h
      simp [nodesList, playedShapeList, bindingShapeList, edgesList,
        pressList_nil, connectTargets_nil]
  | cons b rest =>
      rcases h1 : Binding.play b dest u fresh with ⟨n1, t1, evs1, f1⟩
      rcases hR : playList rest dest u f1 with ⟨ts2, evs2, f2⟩
      have h2 := h
      simp only [playList, h1, hR] at h2
      simp only [Prod.mk.injEq] at h2
      obtain ⟨rfl, rfl, rfl⟩ := h2
      obtain ⟨A1, A2, A3, A4, A5, A6, A7, A8, A9, A10, A11⟩ :=
        play_spec b dest u fresh n1 t1 evs1 f1 h1
      obtain ⟨B1, B2, B3, B4, B5, B6, B7⟩ := playList_spec rest dest u f1 ts2 evs2 f2 hR
      have hnodes : nodesList (t1 :: ts2) = t1.nodes ++ nodesList ts2 := rfl
      have hedges : edgesList (t1 :: ts2) dest
          = (t1.node, dest) :: (t1.edges ++ edgesList ts2 dest) := rfl
      have hn1 : n1 = fresh := by rw [A1, A2]
      have hrootout : t1.node ∉ nodesList ts2 := by
        intro hc
        have := B2 _ hc
        omega
      refine ⟨by omega, ?_, ?_, ?_, ?_, ?_, ?_⟩
      · intro m hm
        rw [hnodes] at hm
        rcases List.mem_append.mp hm with hmm | hmm
        · have := A5 m hmm; omega
        · have := B2 m hmm; omega
      · show playedShapeList (t1 :: ts2) = bindingShapeList (b :: rest)
        simp only [playedShapeList, bindingShapeList, A6, B3]
      · rw [hnodes, pressList_append, pressList_connect, A7, B4, List.map_append]
      · intro cp hcp
        rw [hedges] at hcp
        rcases List.mem_cons.mp hcp with hcp | hcp
        · subst hcp
          rw [connectTargets_append, A8, ← A1, connectTargets_connect_self,
            B7 _ (A1 ▸ hrootout)]
          simp
        · rcases List.mem_append.mp hcp with hcp | hcp
          · have hsrc := A10 cp hcp
            have hne : n1 ≠ cp.1 := by
              rw [A1]
              exact fun hc => hsrc.2 hc.symm
            have hout2 : cp.1 ∉ nodesList ts2 := by
              intro hc
              have hx := A5 _ hsrc.1
              have hy := B2 _ hc
              omega
            rw [connectTargets_append, A9 cp hcp,
              connectTargets_connect_ne _ _ _ _ hne, B7 _ hout2, List.append_nil]
          · have hsrc := B6 cp hcp
            have hy := B2 _ hsrc
            have hout1 : cp.1 ∉ t1.nodes := by
              intro hc
              have hx := A5 _ hc
              omega
            have hne : n1 ≠ cp.1 := by
              rw [hn1]
              omega
            rw [connectTargets_append, A11 _ hout1,
              connectTargets_connect_ne _ _ _ _ hne, B5 cp hcp, List.nil_append]
      · intro cp hcp
        rw [hedges] at hcp
        rw [hnodes]
        rcases List.mem_cons.mp hcp with hcp | hcp
        · subst hcp
          exact List.mem_append.mpr (Or.inl A3)
        · rcases List.mem_append.mp hcp with hcp | hcp
          · exact List.mem_append.mpr (Or.inl (A10 cp hcp).1)
          · exact List.mem_append.mpr (Or.inr (B6 cp hcp))
      · intro c hc
        rw [hnodes] at hc
        have hc1 : c ∉ t1.nodes := fun hcc => hc (List.mem_append.mpr (Or.inl hcc))
        have hc2 : c ∉ nodesList ts2 := fun hcc => hc (List.mem_append.mpr (Or.inr hcc))
        have hne : n1 ≠ c := by
          rw [A1]
          exact fun hcc => hc1 (hcc ▸ A3)
        rw [connectTargets_append, A11 _ hc1,
          connectTargets_connect_ne _ _ _ _ hne, B7 c hc2, List.nil_append]

end

end AudioJS

namespace AudioJS

/-- Claim C5: `play(engine, destination, at)` presses exactly one node per
binding via its stage's press (one press event per node of the played tree,
which has the binding tree's shape), connects the pressed node into
`destination`, records it on the binding (the played tree pairs each binding
with its node), recursively plays every child binding with this node as the
child's destination and the same `at` (each child's node is connected to its
parent's node), and returns the node; every node in the tree is pressed with
the identical start instant `at`. -/
theorem play_one_pass_same_instant (b : Binding) (dest : Nat) (u : ℚ)
    (fresh n : Nat) (t : PlayedTree) (evs : List Event) (fresh2 : Nat)
    (h : Binding.play b dest u fresh = (n, t, evs, fresh2)) :
    n = t.node ∧
      t.shape = b.shape ∧
      pressList evs = t.nodes.map (fun m => (m, u)) ∧
      Event.connect t.node dest ∈ evs ∧
      ∀ cp ∈ t.edges, Event.connect cp.1 cp.2 ∈ evs := by
  obtain ⟨A1, A2, A3, A4, A5, A6, A7, A8, A9, A10, A11⟩ :=
    play_spec b dest u fresh n t evs fresh2 h
  refine ⟨A1, A6, A7, ?_, ?_⟩
  · exact connect_mem_of_target evs t.node dest (by rw [A8]; exact List.mem_cons_self _ _)
  · intro cp hcp
    exact connect_mem_of_target evs cp.1 cp.2
      (by rw [A9 cp hcp]; exact List.mem_cons_self _ _)

/-- Claim C5 witness: a Gain-over-Wave binding played into destination node 0 at
time 0 with the allocation counter starting at 1: two nodes are pressed, both
at instant 0, the gain node is connected into the destination and the wave
node into the gain node. -/
theorem play_one_pass_same_instant_witness :
    Binding.play (Binding.mk (.gain 1 []) none [Binding.mk (.wave "sine") (some 440) []]) 0 0 1
        = (1, .mk 1 [.mk 2 []],
            [.press 1 0, .connect 1 0, .press 2 0, .connect 2 1, .connect 2 1], 3) ∧
      (1 = (PlayedTree.mk 1 [.mk 2 []]).node ∧
        (PlayedTree.mk 1 [.mk 2 []]).shape
          = (Binding.mk (.gain 1 []) none [Binding.mk (.wave "sine") (some 440) []]).shape ∧
        pressList [.press 1 0, .connect 1 0, .press 2 0, .connect 2 1, .connect 2 1]
          = (PlayedTree.mk 1 [.mk 2 []]).nodes.map (fun m => (m, (0 : ℚ))) ∧
        Event.connect (PlayedTree.mk 1 [.mk 2 []]).node 0
            ∈ [Event.press 1 0, .connect 1 0, .press 2 0, .connect 2 1, .connect 2 1] ∧
        ∀ cp ∈ (PlayedTree.mk 1 [.mk 2 []]).edges,
          Event.connect cp.1 cp.2
            ∈ [Event.press 1 0, .connect 1 0, .press 2 0, .connect 2 1, .connect 2 1]) := by
  refine ⟨by simp [Binding.play, playList], ?_⟩
  exact play_one_pass_same_instant
    (Binding.mk (.gain 1 []) none [Binding.mk (.wave "sine") (some 440) []]) 0 0 1
    1 (.mk 1 [.mk 2 []])
    [.press 1 0, .connect 1 0, .press 2 0, .connect 2 1, .connect 2 1] 3
    (by simp [Binding.play, playList])

/-- Claim C10: during play, every non-root binding's node is connected exactly
twice, both times with its parent's node as the target: once inside the
child's own play call (which connects the pressed node to the destination it
was given, i.e. the parent's node) and a second time when the parent calls
`.connect(node)` on the node returned by the child's play (src/index.js
line 55). -/
theorem play_connects_each_child_twice (b : Binding) (dest : Nat) (u : ℚ)
    (fresh n : Nat) (t : PlayedTree) (evs : List Event) (fresh2 : Nat)
    (h : Binding.play b dest u fresh = (n, t, evs, fresh2)) :
    ∀ cp ∈ t.edges, connectTargets evs cp.1 = [cp.2, cp.2] :=
  (play_spec b dest u fresh n t evs fresh2 h).2.2.2.2.2.2.2.2.1

/-- Claim C10 witness: an Envelope-over-Noise binding played into destination 5
at time 2 with the counter starting at 10: the noise node 11 is connected to
the envelope node 10 exactly twice. -/
theorem play_connects_each_child_twice_witness :
    Binding.play
        (Binding.mk (.envelope (1/10) (1/5) (3/5) (3/10) []) (some 330)
          [Binding.mk .noise none []]) 5 2 10
        = (10, .mk 10 [.mk 11 []],
            [.press 10 2, .connect 10 5, .press 11 2, .connect 11 10, .connect 11 10], 12) ∧
      (11, 10) ∈ (PlayedTree.mk 10 [.mk 11 []]).edges ∧
      connectTargets
          [.press 10 2, .connect 10 5, .press 11 2, .connect 11 10, .connect 11 10] 11
        = [10, 10] := by
  refine ⟨by simp [Binding.play, playList], ?_, ?_⟩
  · simp [PlayedTree.edges, edgesList, PlayedTree.node]
  · exact play_connects_each_child_twice
      (Binding.mk (.envelope (1/10) (1/5) (3/5) (3/10) []) (some 330)
        [Binding.mk .noise none []]) 5 2 10
      10 (.mk 10 [.mk 11 []])
      [.press 10 2, .connect 10 5, .press 11 2, .connect 11 10, .connect 11 10] 12
      (by simp [Binding.play, playList])
      (11, 10)
      (by simp [PlayedTree.edges, edgesList, PlayedTree.node])

end AudioJS

namespace AudioJS

theorem valueFrom_skip (es rest : List AutomationEvent) (v0 t0 t : ℚ)
    (h : ∀ e ∈ es, e.time ≤ t) :
    ∃ v1 t1, valueFrom v0 t0 (es ++ rest) t = valueFrom v1 t1 rest t := by
  induction es generalizing v0 t0 with
  | nil => exact ⟨v0, t0, rfl⟩
  | cons e es2 ih =>
      cases e with
      | setValue v1 t1 =>
          have ht1 : t1 ≤ t := by
            have := h _ (List.mem_cons_self _ _)
            simpa [AutomationEvent.time] using this
          have step : valueFrom v0 t0 ((AutomationEvent.setValue v1 t1 :: es2) ++ rest) t
              = if t < t1 then v0 else valueFrom v1 t1 (es2 ++ rest) t := rfl
          rw [step, if_neg (not_lt.mpr ht1)]
          exact ih v1 t1 (fun e he => h e (List.mem_cons_of_mem _ he))
      | linearRamp v1 t1 =>
          have ht1 : t1 ≤ t := by
            have := h _ (List.mem_cons_self _ _)
            simpa [AutomationEvent.time] using this
          have step : valueFrom v0 t0 ((AutomationEvent.linearRamp v1 t1 :: es2) ++ rest) t
              = if t < t1 then
                  (if t ≤ t0 then v0 else v0 + (v1 - v0) * (t - t0) / (t1 - t0))
                else valueFrom v1 t1 (es2 ++ rest) t := rfl
          rw [step, if_neg (not_lt.mpr ht1)]
          exact ih v1 t1 (fun e he => h e (List.mem_cons_of_mem _ he))

/-- Claim C7: for an Envelope with attack `a`, decay `d`, sustain `s`, `press`
schedules exactly three breakpoints on the created gain node relative to the
start instant `u` — value 0 at `u`, value 1 at `u + a` (linear ramp), value
`s` at `u + a + d` (linear ramp) — and no further events; under the engine's
ramp semantics the gain is 0 at `u`, 1 at `u + a`, `s` at `u + a + d`, and
sustain holds at `s` from then on until a release re-schedules the
parameter. -/
theorem envelope_press_schedule (a d s u : ℚ) (ha : 0 < a) (hd : 0 < d) :
    (Envelope.press a d s u).events
        = [.setValue 0 u, .linearRamp 1 (u + a), .linearRamp s (u + a + d)] ∧
      (Envelope.press a d s u).valueAt u = 0 ∧
      (Envelope.press a d s u).valueAt (u + a) = 1 ∧
      (Envelope.press a d s u).valueAt (u + a + d) = s ∧
      ∀ t, u + a + d ≤ t → (Envelope.press a d s u).valueAt t = s := by
  have hev : (Envelope.press a d s u).events
      = [.setValue 0 u, .linearRamp 1 (u + a), .linearRamp s (u + a + d)] := by
    simp [Envelope.press, GainParam.setValueAtTime, GainParam.linearRampToValueAtTime]
  have hinit : (Envelope.press a d s u).initialValue = 1 := by
    simp [Envelope.press, GainParam.setValueAtTime, GainParam.linearRampToValueAtTime]
  refine ⟨hev, ?_, ?_, ?_, ?_⟩
  · rw [GainParam.valueAt, hev, hinit]
    have step1 : valueFrom 1 u
        [AutomationEvent.setValue 0 u, .linearRamp 1 (u + a), .linearRamp s (u + a + d)] u
        = if u < u then 1
          else valueFrom 0 u
            [AutomationEvent.linearRamp 1 (u + a), .linearRamp s (u + a + d)] u := rfl
    rw [step1, if_neg (lt_irrefl u)]
    have step2 : valueFrom 0 u
        [AutomationEvent.linearRamp 1 (u + a), .linearRamp s (u + a + d)] u
        = if u < u + a then
            (if u ≤ u then 0 else 0 + (1 - 0) * (u - u) / (u + a - u))
          else valueFrom 1 (u + a) [AutomationEvent.linearRamp s (u + a + d)] u := rfl
    rw [step2, if_pos (by linarith), if_pos le_rfl]
  · rw [GainParam.valueAt, hev, hinit]
    have step1 : valueFrom 1 (u + a)
        [AutomationEvent.setValue 0 u, .linearRamp 1 (u + a), .linearRamp s (u + a + d)]
        (u + a)
        = if u + a < u then 1
          else valueFrom 0 u
            [AutomationEvent.linearRamp 1 (u + a), .linearRamp s (u + a + d)] (u + a) := rfl
    rw [step1, if_neg (by linarith)]
    have step2 : valueFrom 0 u
        [AutomationEvent.linearRamp 1 (u + a), .linearRamp s (u + a + d)] (u + a)
        = if u + a < u + a then
            (if u + a ≤ u then 0 else 0 + (1 - 0) * (u + a - u) / (u + a - u))
          else valueFrom 1 (u + a) [AutomationEvent.linearRamp s (u + a + d)] (u + a) := rfl
    rw [step2, if_neg (lt_irrefl (u + a))]
    have step3 : valueFrom 1 (u + a) [AutomationEvent.linearRamp s (u + a + d)] (u + a)
        = if u + a < u + a + d then
            (if u + a ≤ u + a then 1
             else 1 + (s - 1) * (u + a - (u + a)) / (u + a + d - (u + a)))
          else valueFrom s (u + a + d) [] (u + a) := rfl
    rw [step3, if_pos (by linarith), if_pos le_rfl]
  · rw [GainParam.valueAt, hev, hinit]
    have step1 : valueFrom 1 (u + a + d)
        [AutomationEvent.setValue 0 u, .linearRamp 1 (u + a), .linearRamp s (u + a + d)]
        (u + a + d)
        = if u + a + d < u then 1
          else valueFrom 0 u
            [AutomationEvent.linearRamp 1 (u + a), .linearRamp s (u + a + d)] (u + a + d) := rfl
    rw [step1, if_neg (by linarith)]
    have step2 : valueFrom 0 u
        [AutomationEvent.linearRamp 1 (u + a), .linearRamp s (u + a + d)] (u + a + d)
        = if u + a + d < u + a then
            (if u + a + d ≤ u then 0 else 0 + (1 - 0) * (u + a + d - u) / (u + a - u))
          else valueFrom 1 (u + a) [AutomationEvent.linearRamp s (u + a + d)] (u + a + d) := rfl
    rw [step2, if_neg (by linarith)]
    have step3 : valueFrom 1 (u + a) [AutomationEvent.linearRamp s (u + a + d)] (u + a + d)
        = if u + a + d < u + a + d then
            (if u + a + d ≤ u + a then 1
             else 1 + (s - 1) * (u + a + d - (u + a)) / (u + a + d - (u + a)))
          else valueFrom s (u + a + d) [] (u + a + d) := rfl
    rw [step3, if_neg (lt_irrefl (u + a + d))]
    rfl
  · intro t htt
    rw [GainParam.valueAt, hev, hinit]
    have step1 : valueFrom 1 t
        [AutomationEvent.setValue 0 u, .linearRamp 1 (u + a), .linearRamp s (u + a + d)] t
        = if t < u then 1
          else valueFrom 0 u
            [AutomationEvent.linearRamp 1 (u + a), .linearRamp s (u + a + d)] t := rfl
    rw [step1, if_neg (by linarith)]
    have step2 : valueFrom 0 u
        [AutomationEvent.linearRamp 1 (u + a), .linearRamp s (u + a + d)] t
        = if t < u + a then
            (if t ≤ u then 0 else 0 + (1 - 0) * (t - u) / (u + a - u))
          else valueFrom 1 (u + a) [AutomationEvent.linearRamp s (u + a + d)] t := rfl
    rw [step2, if_neg (by linarith)]
    have step3 : valueFrom 1 (u + a) [AutomationEvent.linearRamp s (u + a + d)] t
        = if t < u + a + d then
            (if t ≤ u + a then 1 else 1 + (s - 1) * (t - (u + a)) / (u + a + d - (u + a)))
          else valueFrom s (u + a + d) [] t := rfl
    rw [step3, if_neg (by linarith)]
    rfl

/-- Claim C7 witness: the spec's end-to-end example — attack 1/10, decay 1/5,
sustain 3/5, pressed at 5: breakpoints 0@5, 1@(5 + 1/10), (3/5)@(5 + 1/10 + 1/5),
and sustain holds afterwards. -/
theorem envelope_press_schedule_witness :
    (0 : ℚ) < 1/10 ∧ (0 : ℚ) < 1/5 ∧
      ((Envelope.press (1/10) (1/5) (3/5) 5).events
          = [.setValue 0 5, .linearRamp 1 (5 + 1/10), .linearRamp (3/5) (5 + 1/10 + 1/5)] ∧
        (Envelope.press (1/10) (1/5) (3/5) 5).valueAt 5 = 0 ∧
        (Envelope.press (1/10) (1/5) (3/5) 5).valueAt (5 + 1/10) = 1 ∧
        (Envelope.press (1/10) (1/5) (3/5) 5).valueAt (5 + 1/10 + 1/5) = 3/5 ∧
        ∀ t, 5 + 1/10 + 1/5 ≤ t → (Envelope.press (1/10) (1/5) (3/5) 5).valueAt t = 3/5) :=
  ⟨by norm_num, by norm_num,
    envelope_press_schedule (1/10) (1/5) (3/5) 5 (by norm_num) (by norm_num)⟩

/-- Claim C6: for an Envelope with release parameter `rel`, `release(node)` reads
the node's current gain value (whatever the scheduled events make it at that
instant), cancels every scheduled event from the current time onward,
re-anchors the gain at that current value at the current time, schedules a
linear ramp to 0 reaching it exactly `rel` seconds later (the gain is
unchanged at `now`, 0 at `now + rel`, and linearly interpolated in between),
and returns `now + rel` as the stop time. -/
theorem envelope_release_contract (rel : ℚ) (g : GainParam) (now : ℚ) (hr : 0 < rel) :
    (Envelope.release rel g now).2 = now + rel ∧
      (Envelope.release rel g now).1.events
        = g.events.filter (fun e => e.time < now)
            ++ [.setValue (g.valueAt now) now, .linearRamp 0 (now + rel)] ∧
      (Envelope.release rel g now).1.valueAt now = g.valueAt now ∧
      (Envelope.release rel g now).1.valueAt (now + rel) = 0 ∧
      ∀ t, now < t → t < now + rel →
        (Envelope.release rel g now).1.valueAt t
          = g.valueAt now * ((now + rel - t) / rel) := by
  have hev : (Envelope.release rel g now).1.events
      = g.events.filter (fun e => e.time < now)
          ++ [.setValue (g.valueAt now) now, .linearRamp 0 (now + rel)] := by
    simp [Envelope.release, GainParam.cancelScheduledValues, GainParam.setValueAtTime,
      GainParam.linearRampToValueAtTime]
  have hinit : (Envelope.release rel g now).1.initialValue = g.initialValue := by
    simp [Envelope.release, GainParam.cancelScheduledValues, GainParam.setValueAtTime,
      GainParam.linearRampToValueAtTime]
  have hfilter : ∀ t2, now ≤ t2 →
      ∀ e ∈ g.events.filter (fun e => e.time < now), e.time ≤ t2 := by
    intro t2 ht2 e he
    have hm := List.mem_filter.mp he
    have : e.time < now := of_decide_eq_true hm.2
    linarith
  refine ⟨rfl, hev, ?_, ?_, ?_⟩
  · rw [GainParam.valueAt, hev, hinit]
    obtain ⟨v1, t1, hskip⟩ := valueFrom_skip (g.events.filter (fun e => e.time < now))
      [.setValue (g.valueAt now) now, .linearRamp 0 (now + rel)]
      g.initialValue now now (hfilter now le_rfl)
    rw [hskip]
    have step1 : valueFrom v1 t1
        [AutomationEvent.setValue (g.valueAt now) now, .linearRamp 0 (now + rel)] now
        = if now < now then v1
          else valueFrom (g.valueAt now) now
            [AutomationEvent.linearRamp 0 (now + rel)] now := rfl
    rw [step1, if_neg (lt_irrefl now)]
    have step2 : valueFrom (g.valueAt now) now
        [AutomationEvent.linearRamp 0 (now + rel)] now
        = if now < now + rel then
            (if now ≤ now then g.valueAt now
             else g.valueAt now + (0 - g.valueAt now) * (now - now) / (now + rel - now))
          else valueFrom 0 (now + rel) [] now := rfl
    rw [step2, if_pos (by linarith), if_pos le_rfl]
  · rw [GainParam.valueAt, hev, hinit]
    obtain ⟨v1, t1, hskip⟩ := valueFrom_skip (g.events.filter (fun e => e.time < now))
      [.setValue (g.valueAt now) now, .linearRamp 0 (now + rel)]
      g.initialValue (now + rel) (now + rel) (hfilter (now + rel) (by linarith))
    rw [hskip]
    have step1 : valueFrom v1 t1
        [AutomationEvent.setValue (g.valueAt now) now, .linearRamp 0 (now + rel)] (now + rel)
        = if now + rel < now then v1
          else valueFrom (g.valueAt now) now
            [AutomationEvent.linearRamp 0 (now + rel)] (now + rel) := rfl
    rw [step1, if_neg (by linarith)]
    have step2 : valueFrom (g.valueAt now) now
        [AutomationEvent.linearRamp 0 (now + rel)] (now + rel)
        = if now + rel < now + rel then
            (if now + rel ≤ now then g.valueAt now
             else g.valueAt now + (0 - g.valueAt now) * (now + rel - now) / (now + rel - now))
          else valueFrom 0 (now + rel) [] (now + rel) := rfl
    rw [step2, if_neg (lt_irrefl (now + rel))]
    rfl
  · intro t ht1 ht2
    rw [GainParam.valueAt, hev, hinit]
    obtain ⟨v1, t1, hskip⟩ := valueFrom_skip (g.events.filter (fun e => e.time < now))
      [.setValue (g.valueAt now) now, .linearRamp 0 (now + rel)]
      g.initialValue t t (hfilter t (by linarith))
    rw [hskip]
    have step1 : valueFrom v1 t1
        [AutomationEvent.setValue (g.valueAt now) now, .linearRamp 0 (now + rel)] t
        = if t < now then v1
          else valueFrom (g.valueAt now) now [AutomationEvent.linearRamp 0 (now + rel)] t := rfl
    rw [step1, if_neg (by linarith)]
    have step2 : valueFrom (g.valueAt now) now [AutomationEvent.linearRamp 0 (now + rel)] t
        = if t < now + rel then
            (if t ≤ now then g.valueAt now
             else g.valueAt now + (0 - g.valueAt now) * (t - now) / (now + rel - now))
          else valueFrom 0 (now + rel) [] t := rfl
    rw [step2, if_pos ht2, if_neg (by linarith)]
    have hrne : rel ≠ 0 := ne_of_gt hr
    field_simp
    ring

/-- Claim C6 witness: the spec's end-to-end example — the envelope of the C7
example released at engine time 103/20 (= 5.15, mid-decay, where the
interpolated gain is 9/10) with release 3/10: the stop time is 103/20 + 3/10
and the ramp re-anchors at the current value. -/
theorem envelope_release_contract_witness :
    (0 : ℚ) < 3/10 ∧
      (Envelope.press (1/10) (1/5) (3/5) 5).valueAt (103/20) = 9/10 ∧
      ((Envelope.release (3/10) (Envelope.press (1/10) (1/5) (3/5) 5) (103/20)).2
          = 103/20 + 3/10 ∧
        (Envelope.release (3/10) (Envelope.press (1/10) (1/5) (3/5) 5) (103/20)).1.events
          = (Envelope.press (1/10) (1/5) (3/5) 5).events.filter (fun e => e.time < 103/20)
              ++ [.setValue ((Envelope.press (1/10) (1/5) (3/5) 5).valueAt (103/20)) (103/20),
                  .linearRamp 0 (103/20 + 3/10)] ∧
        (Envelope.release (3/10) (Envelope.press (1/10) (1/5) (3/5) 5) (103/20)).1.valueAt
            (103/20)
          = (Envelope.press (1/10) (1/5) (3/5) 5).valueAt (103/20) ∧
        (Envelope.release (3/10) (Envelope.press (1/10) (1/5) (3/5) 5) (103/20)).1.valueAt
            (103/20 + 3/10)
          = 0 ∧
        ∀ t, 103/20 < t → t < 103/20 + 3/10 →
          (Envelope.release (3/10) (Envelope.press (1/10) (1/5) (3/5) 5) (103/20)).1.valueAt t
            = (Envelope.press (1/10) (1/5) (3/5) 5).valueAt (103/20)
                * ((103/20 + 3/10 - t) / (3/10))) :=
  ⟨by norm_num,
    by
      norm_num [Envelope.press, GainParam.setValueAtTime, GainParam.linearRampToValueAtTime,
        GainParam.valueAt, valueFrom],
    envelope_release_contract (3/10) (Envelope.press (1/10) (1/5) (3/5) 5) (103/20)
      (by norm_num)⟩

end AudioJS

namespace AudioJS

mutual

theorem stopRun_ok_iff (beh : Nat → Option (ℚ → Except String Unit))
    (t : PlayedTree) (u : ℚ) :
    PlayedTree.stopRun beh t u = .ok () ↔
      ∀ n ∈ t.nodes, ∀ f, beh n = some f → f u = .ok () := by
  cases t with
  | mk n cs =>
      have hnodes : (PlayedTree.mk n cs).nodes = n :: nodesList cs := rfl
      have hlist := stopRunList_ok_iff beh cs u
      rcases hb : beh n with _ | f
      · have hrun : PlayedTree.stopRun beh (.mk n cs) u = stopRunList beh cs u := by
          simp [PlayedTree.stopRun, hb]
        rw [hrun, hnodes, hlist]
        constructor
        · intro hall m hm f2 hf2
          rcases List.mem_cons.mp hm with h | h
          · subst h
            rw [hb] at hf2
            cases hf2
          · exact hall m h f2 hf2
        · intro hall m hm f2 hf2
          exact hall m (List.mem_cons_of_mem _ hm) f2 hf2
      · rcases hf : f u with msg | vu
        · have hrun : PlayedTree.stopRun beh (.mk n cs) u = .error msg := by
            simp [PlayedTree.stopRun, hb, hf]
          rw [hrun, hnodes]
          constructor
          · intro hc
            cases hc
          · intro hall
            have := hall n (List.mem_cons_self _ _) f hb
            rw [hf] at this
            cases this
        · cases vu
          have hrun : PlayedTree.stopRun beh (.mk n cs) u = stopRunList beh cs u := by
            simp [PlayedTree.stopRun, hb, hf]
          rw [hrun, hnodes, hlist]
          constructor
          · intro hall m hm f2 hf2
            rcases List.mem_cons.mp hm with h | h
            · subst h
              rw [hb] at hf2
              injection hf2 with hf2
              subst hf2
              exact hf
            · exact hall m h f2 hf2
          · intro hall m hm f2 hf2
            exact hall m (List.mem_cons_of_mem _ hm) f2 hf2

theorem stopRunList_ok_iff (beh : Nat → Option (ℚ → Except String Unit))
    (l : List PlayedTree) (u : ℚ) :
    stopRunList beh l u = .ok () ↔
      ∀ n ∈ nodesList l, ∀ f, beh n = some f → f u = .ok () := by
  cases l with
  | nil => simp [stopRunList, nodesList]
  | cons t ts =>
      have htree := stopRun_ok_iff beh t u
      have hrest := stopRunList_ok_iff beh ts u
      have hnodes : nodesList (t :: ts) = t.nodes ++ nodesList ts := rfl
      rcases hs : PlayedTree.stopRun beh t u with msg | vu
      · have hrun : stopRunList beh (t :: ts) u = .error msg := by
          simp [stopRunList, hs]
        rw [hrun, hnodes]
        constructor
        · intro hc
          cases hc
        · intro hall
          have hok : PlayedTree.stopRun beh t u = .ok () :=
            htree.mpr (fun n hn f hf => hall n (List.mem_append.mpr (Or.inl hn)) f hf)
          rw [hs] at hok
          cases hok
      · cases vu
        have hrun : stopRunList beh (t :: ts) u = stopRunList beh ts u := by
          simp [stopRunList, hs]
        rw [hrun, hnodes, hrest]
        constructor
        · intro hall n hn f hf
          rcases List.mem_append.mp hn with h | h
          · exact (htree.mp hs) n h f hf
          · exact hall n h f hf
        · intro hall n hn f hf
          exact hall n (List.mem_append.mpr (Or.inr hn)) f hf

end

/-- Claim C8 counterexample: a single played node whose engine stop operation is
present but invalid in the node's current state (it throws InvalidStateError):
`Binding.stop` guards only the existence of `stop` (`this.node.stop &&`), with
no try/catch, so the stop pass raises the error to the caller — refuting
"the stop pass never raises an error to the caller". -/
theorem stop_pass_raises_on_invalid_stop :
    PlayedTree.stopRun
        (fun _ => some (fun _ => Except.error "InvalidStateError")) (.mk 0 []) 0
      = .error "InvalidStateError" := by
  simp [PlayedTree.stopRun, stopRunList]

/-- Claim C8 (corrected): the stop pass tolerates a node without a stop
operation (the call is skipped; no error), but it does not guard against a
present stop operation failing: it completes without raising iff every node's
stop operation, where present, succeeds at the given time — any failure
propagates to the caller and aborts the rest of the pass. -/
theorem stop_pass_ok_iff (beh : Nat → Option (ℚ → Except String Unit))
    (t : PlayedTree) (u : ℚ) :
    PlayedTree.stopRun beh t u = .ok () ↔
      ∀ n ∈ t.nodes, ∀ f, beh n = some f → f u = .ok () :=
  stopRun_ok_iff beh t u

/-- Claim C8 witness: a two-node played tree whose nodes have no stop operation:
the pass is a harmless no-op (and the characterization's right side holds
vacuously). -/
theorem stop_pass_ok_iff_witness :
    (PlayedTree.stopRun (fun _ => none) (.mk 3 [.mk 4 []]) 1 = .ok () ↔
      ∀ n ∈ (PlayedTree.mk 3 [.mk 4 []]).nodes,
        ∀ f, (fun _ => (none : Option (ℚ → Except String Unit))) n = some f →
          f 1 = .ok ()) :=
  stop_pass_ok_iff (fun _ => none) (.mk 3 [.mk 4 []]) 1

end AudioJS
